import Mathlib

/-!
Verification development for the better-comments-enhanced comment scanner.

The TypeScript source (parser module, configuration module, contribution
interfaces) is embedded shallowly:

* documents are Lean `String`s, positions are `Nat` character offsets;
* the regular expressions the parser builds are interpreted by executable
  matchers specialised to the exact pattern shapes the source constructs
  (escaped-literal delimiter, optional whitespace, tag alternation,
  rest-of-line, block start/end pairs, fenced code blocks), mirroring the
  JavaScript backtracking semantics (greedy/lazy quantifiers, ordered
  alternation, multiline and case-insensitivity flags) for those shapes;
* the asynchronous configuration lookup is modelled as a pure function
  `String -> Option CommentConfig` (the read-through cache is transparent);
* the opaque `vscode.TextEditorDecorationType` style handle is modelled as
  the `Nat` index of the tag in the registry.
-/

namespace BetterComments

/-! ## Escaping (source: `escapeRegExp`, `Parser.setTags`) -/

/-- Metacharacter class of `escapeRegExp` in the parser module, line 34:
`input.replace(/[.*+?^${}()|[\]\\]/g, '\\$&')`. -/
def escapeRegExpMeta : List Char :=
  ['.', '*', '+', '?', '^', '$', '{', '}', '(', ')', '|', '[', ']', '\\']

/-- Metacharacter class used by `Parser.setTags`, line 401:
`item.tag.replace(/([()[{*+.$^\\|?])/g, '\\$1')`.  Note that `]` and `}`
are absent from this class. -/
def setTagsMeta : List Char :=
  ['(', ')', '[', '{', '*', '+', '.', '$', '^', '\\', '|', '?']

/-- Prepend a backslash to every character of `metas` (the semantics of the
`replace(/[class]/g, '\\$&')` calls in the source). -/
def escapeList (metas : List Char) : List Char → List Char
  | [] => []
  | c :: cs =>
    if c ∈ metas then '\\' :: c :: escapeList metas cs
    else c :: escapeList metas cs

/-- `escapeRegExp` from the parser module. -/
def escapeRegExp (s : String) : String := ⟨escapeList escapeRegExpMeta s.data⟩

/-- The additional `.replace(/\//ig, "\\/")` pass applied to single-line
delimiters (`genCommentFormat`) and to escaped tags (`Parser.setTags`). -/
def escapeSlashList : List Char → List Char
  | [] => []
  | c :: cs =>
    if c = '/' then '\\' :: c :: escapeSlashList cs
    else c :: escapeSlashList cs

def escapeSlashes (s : String) : String := ⟨escapeSlashList s.data⟩

/-! ## Data model (source: contribution interfaces, `CommentTag`,
`CommentConfig`, `ICommentFormat`, `IParserState`, `IInput`) -/

structure TagContribution where
  tag : String
  color : String
  strikethrough : Bool
  underline : Bool
  bold : Bool
  italic : Bool
  backgroundColor : String
deriving Repr, DecidableEq

structure Contributions where
  highlightMarkdown : Bool
  multilineComments : Bool
  useJSDocStyle : Bool
  highlightPlainText : Bool
  tags : List TagContribution
deriving Repr, DecidableEq

structure CommentTag where
  tag : String
  escapedTag : String
  /-- The opaque `vscode.TextEditorDecorationType` handle, modelled as the
  index the tag receives in `Parser.setTags`. -/
  decoration : Nat
deriving Repr, DecidableEq

structure CommentConfig where
  lineComment : Option String
  blockComment : Option (String × String)
deriving Repr, DecidableEq

structure ICommentFormat where
  blockCommentStart : String
  blockCommentEnd : String
  delimiter : String
deriving Repr, DecidableEq

structure IParserState where
  supportedLanguage : Bool
  ignoreFirstLine : Bool
  isPlainText : Bool
  highlightJSDoc : Bool
  highlightSingleLineComments : Bool
  highlightMultilineComments : Bool
  blockCommentStart : String
  blockCommentEnd : String
  delimiter : String
deriving Repr, DecidableEq

/-- `IInput`.  `activeEditor.document` becomes the document text, a
`vscode.Range` becomes a pair of character offsets, and the `Configuration`
collaborator becomes the pure registry function it wraps. -/
structure Input where
  document : String
  languageCode : String
  range : Option (Nat × Nat)
  contributions : Contributions
  registry : String → Option CommentConfig
  tags : List CommentTag

/-- A `(tagId, startOffset, endOffset)` match, the `IDecoration` of the
source with the `vscode.Range` flattened to absolute character offsets. -/
structure Decoration where
  decoration : Nat
  startOffset : Nat
  endOffset : Nat
deriving Repr, DecidableEq

/-- JavaScript string truthiness for `string | null` values. -/
def strTruthy : Option String → Bool
  | none => false
  | some s => !s.data.isEmpty

/-! ## Tag registry (source: `Parser.setTags`) -/

/-- `Parser.setTags`: escape the metacharacters of `setTagsMeta`, then
additionally escape forward slashes; the decoration handle is the index of
the tag in declaration order.  (Styling fields are passed through to the
styling collaborator and do not influence scanning.) -/
def setTags (items : List TagContribution) : List CommentTag :=
  (items.enum).map fun p =>
    { tag := p.2.tag
      escapedTag := ⟨escapeSlashList (escapeList setTagsMeta p.2.tag.data)⟩
      decoration := p.1 }

/-! ## Language syntax resolver (source: `configuration.ts`) -/

def MARKDOWN_CODE_TO_LANGUAGE_MAP : List (String × String) :=
  [("bash", "bash"), ("bat", "bat"), ("batch", "bat"), ("c", "c"),
   ("clj", "clojure"), ("clojure", "clojure"), ("cpp", "cpp"),
   ("cs", "csharp"), ("csharp", "csharp"), ("css", "css"),
   ("docker", "dockerfile"), ("dockerfile", "dockerfile"),
   ("elixir", "elixir"), ("erl", "erlang"), ("erlang", "erlang"),
   ("ex", "elixir"), ("fs", "fsharp"), ("fsharp", "fsharp"), ("go", "go"),
   ("gradle.kts", "groovy"), ("gradle.kts", "groovy"), ("gradle", "groovy"),
   ("groovy", "groovy"), ("haskell", "haskell"), ("hs", "haskell"),
   ("html", "html"), ("ini", "ini"), ("java", "java"),
   ("javascript", "javascript"), ("js", "javascript"), ("json", "json"),
   ("kotlin", "kotlin"), ("kt", "kotlin"), ("less", "less"), ("lua", "lua"),
   ("pascal", "pascal"), ("perl", "perl"), ("perl6", "perl6"),
   ("php", "php"), ("powershell", "powershell"),
   ("properties", "properties"), ("ps", "powershell"), ("py", "python"),
   ("python", "python"), ("r", "r"), ("raku", "perl6"), ("rb", "ruby"),
   ("rs", "rust"), ("ruby", "ruby"), ("rust", "rust"), ("sass", "sass"),
   ("scala", "scala"), ("scss", "scss"), ("sh", "shell"),
   ("shell", "shell"), ("sql", "sql"), ("swift", "swift"),
   ("ts", "typescript"), ("typescript", "typescript"), ("vb", "vb"),
   ("vbnet", "vb"), ("visualbasic", "vb"), ("xml", "xml"),
   ("yaml", "yaml"), ("yml", "yaml")]

/-- The alias step of `Configuration.GetCommentConfiguration`:
`languageCode = MARKDOWN_CODE_TO_LANGUAGE_MAP.get(languageCode) || languageCode`. -/
def aliasLookup (languageCode : String) : String :=
  match (MARKDOWN_CODE_TO_LANGUAGE_MAP.find? (fun p => p.1 == languageCode)).map Prod.snd with
  | some l => if l.isEmpty then languageCode else l
  | none => languageCode

/-- `Configuration.GetCommentConfiguration`, with the external registry of
language configuration files abstracted to `registry` and the read-through
cache (which is observationally transparent) elided. -/
def GetCommentConfiguration (registry : String → Option CommentConfig)
    (languageCode : String) : Option CommentConfig :=
  registry (aliasLookup languageCode)

/-! ## Comment format and parser state (source: `genCommentFormat`,
`processState`) -/

/-- `genCommentFormat`.  `CommentConfig.lineComment` is declared
`lineComment?: string` in the contribution interfaces, so the
`string[]` branch of the source is unreachable and only the string branch
is modelled. -/
def genCommentFormat (singleLine start stop : Option String) : ICommentFormat :=
  let r : ICommentFormat := { blockCommentStart := "", blockCommentEnd := "", delimiter := "" }
  let r :=
    if strTruthy singleLine then
      { r with delimiter := escapeSlashes (escapeRegExp (singleLine.getD "")) }
    else r
  if strTruthy start && strTruthy stop then
    { r with blockCommentStart := escapeRegExp (start.getD "")
             blockCommentEnd := escapeRegExp (stop.getD "") }
  else r

def jsFamily : List String :=
  ["apex", "javascript", "javascriptreact", "typescript", "typescriptreact"]

def firstLineLanguages : List String := ["elixir", "python", "tcl"]

/-- `processState`. -/
def processState (input : Input) : IParserState :=
  match input with
  | ⟨_document, languageCode, _range, contributions, registry, _tags⟩ =>
    let base : IParserState :=
      { supportedLanguage := false, ignoreFirstLine := false, isPlainText := false
        highlightJSDoc := false, highlightSingleLineComments := false
        highlightMultilineComments := false
        blockCommentStart := "", blockCommentEnd := "", delimiter := "" }
    let r :=
      match GetCommentConfiguration registry languageCode with
      | some config =>
        let blockCommentStart := config.blockComment.map Prod.fst
        let blockCommentEnd := config.blockComment.map Prod.snd
        let commentFormat :=
          genCommentFormat
            (if strTruthy config.lineComment then config.lineComment else blockCommentStart)
            blockCommentStart blockCommentEnd
        { base with
            blockCommentStart := commentFormat.blockCommentStart
            blockCommentEnd := commentFormat.blockCommentEnd
            delimiter := commentFormat.delimiter
            supportedLanguage := true
            highlightSingleLineComments := strTruthy blockCommentStart
            highlightMultilineComments :=
              strTruthy blockCommentStart && strTruthy blockCommentEnd
                && contributions.multilineComments }
      | none => base
    if languageCode ∈ jsFamily then
      { r with highlightJSDoc := true }
    else if languageCode ∈ firstLineLanguages then
      { r with ignoreFirstLine := true }
    else if languageCode = "plaintext" then
      { r with isPlainText := true
               supportedLanguage := contributions.highlightPlainText }
    else r

/-! ## Document access -/

/-- `document.getText(range)`. -/
def getTextChars (doc : List Char) (range : Option (Nat × Nat)) : List Char :=
  match range with
  | none => doc
  | some (a, b) => (doc.take b).drop a

/-- `document.offsetAt(range.start)` (`0` when no range is given). -/
def rangeOffset : Option (Nat × Nat) → Nat
  | none => 0
  | some (a, _) => a

/-- The line of `document.positionAt(offset)`. -/
def lineOf (doc : List Char) (offset : Nat) : Nat :=
  ((doc.take offset).filter (fun c => c == '\n')).length

/-- The character (column) of `document.positionAt(offset)`. -/
def charOf (doc : List Char) (offset : Nat) : Nat :=
  (((doc.take offset).reverse).takeWhile (fun c => c != '\n')).length

/-! ## Regex interpretation

The parser builds its regular expressions by splicing escaped-literal
fragments (delimiters, tags) into fixed templates.  The matchers below
interpret exactly those templates, following the ECMAScript backtracking
semantics: ordered alternation, greedy quantifiers backtracked from the
longest attempt, lazy quantifiers extended from the shortest, `i`
case-insensitivity via lower-casing, `m` multiline anchors after `\n`/`\r`,
and repeated `exec` with the `g` flag resuming at the previous match end. -/

/-- `toLowerCase` of JavaScript, character-wise. -/
def jsToLower (cs : List Char) : List Char := cs.map Char.toLower

/-- Character comparison under an optional `i` flag. -/
def charEq (ci : Bool) (a b : Char) : Bool :=
  if ci then a.toLower == b.toLower else a == b

/-- The literal string denoted by an escaped regex fragment: `\c` stands
for the character `c`, any other character for itself (the only
unescaped characters the source can leave in a fragment, `]` and `}`,
are literals in ECMAScript patterns). -/
def patternLiteral : List Char → List Char
  | [] => []
  | c :: ps =>
    if c = '\\' then
      match ps with
      | [] => ['\\']
      | c2 :: ps2 => c2 :: patternLiteral ps2
    else c :: patternLiteral ps

/-- Does the literal `lit` match a prefix of `text`? -/
def litPrefix (ci : Bool) : List Char → List Char → Bool
  | [], _ => true
  | _ :: _, [] => false
  | c :: cs, t :: ts => charEq ci c t && litPrefix ci cs ts

/-- ECMAScript `\s` on the characters our documents can hold. -/
def isJsWS (c : Char) : Bool :=
  c == ' ' || c == '\t' || c == '\n' || c == '\r' || c == '\x0b' || c == '\x0c'

/-- ECMAScript line terminators (the characters `.` and multiline `^`
react to). -/
def lineTermChar (c : Char) : Bool := c == '\n' || c == '\r'

/-- Length of the `(.*)` rest-of-line capture. -/
def lineRest (text : List Char) : Nat :=
  (text.takeWhile (fun c => !lineTermChar c)).length

/-- Length of a `[ \t]*` run. -/
def spaceTabRun (text : List Char) : Nat :=
  (text.takeWhile (fun c => c == ' ' || c == '\t')).length

/-- Is `p` at a line start (multiline `^`)? -/
def lineStartAt (s : List Char) (p : Nat) : Bool :=
  p == 0 || lineTermChar (s.getD (p - 1) 'a')

/-- One repetition unit of a `(lit)+` or `(lit[\s])+` group. -/
structure RepUnit where
  lit : List Char
  wsAfter : Bool
deriving Repr, DecidableEq

def unitLen (u : RepUnit) : Nat := u.lit.length + (if u.wsAfter then 1 else 0)

def unitAt (ci : Bool) (u : RepUnit) (text : List Char) : Bool :=
  litPrefix ci u.lit text &&
    (!u.wsAfter ||
      (match text.drop u.lit.length with
       | c :: _ => isJsWS c
       | [] => false))

/-- Greedy repetition count of a unit (fuel-bounded; a unit of length zero
never repeats, matching the ECMAScript no-progress rule). -/
def maxReps (ci : Bool) (u : RepUnit) : Nat → List Char → Nat
  | 0, _ => 0
  | fuel + 1, text =>
    if unitLen u == 0 then 0
    else if unitAt ci u text then 1 + maxReps ci u fuel (text.drop (unitLen u))
    else 0

/-- First alternative of an escaped-tag alternation matching at `text`,
returning the number of characters it consumes. -/
def firstAlt (ci : Bool) (alts : List (List Char)) (text : List Char) : Option Nat :=
  match alts with
  | [] => none
  | a :: rest =>
    let lit := patternLiteral a
    if litPrefix ci lit text then some lit.length else firstAlt ci rest text

/-- Iterations of `(t1|..|tn)+` beyond the first: ECMAScript stops the
repetition at the first iteration that makes no progress.  Returns the
characters consumed, the offset of the last iteration, and its capture
(if any iteration happened). -/
def altTail (ci : Bool) (alts : List (List Char)) : Nat → List Char → Nat × Nat × Option (List Char)
  | 0, _ => (0, 0, none)
  | fuel + 1, text =>
    match firstAlt ci alts text with
    | none => (0, 0, none)
    | some n =>
      if n == 0 then (0, 0, none)
      else
        match altTail ci alts fuel (text.drop n) with
        | (m, cs, some c) => (n + m, n + cs, some c)
        | _ => (n, 0, some (text.take n))

/-- `(t1|..|tn)+`: at least one iteration (which may be empty, ending the
repetition).  Returns `(consumed, captureOffset, capture)`, the capture
being the text matched by the last iteration. -/
def altPlus (ci : Bool) (alts : List (List Char)) (text : List Char) :
    Option (Nat × Nat × List Char) :=
  match firstAlt ci alts text with
  | none => none
  | some n =>
    if n == 0 then some (0, 0, [])
    else
      match altTail ci alts text.length (text.drop n) with
      | (m, cs, some c) => some (n + m, n + cs, c)
      | _ => some (n, 0, text.take n)

/-! ### The single-line template `(delimiter)+( |\t)*(t1|..|tn)+(.*)` -/

/-- Attempt `(tags)+(.*)` at offset `c` from the match start (`rest` being
the text from the match start).  Returns `(length, captureOffset, capture)`
relative to the match start. -/
def slFinish (alts : List (List Char)) (rest : List Char) (c : Nat) :
    Option (Nat × Nat × List Char) :=
  match altPlus true alts (rest.drop c) with
  | none => none
  | some (n, cs, cap) =>
    some (c + n + lineRest (rest.drop (c + n)), c + cs, cap)

/-- Greedy `( |\t)*` between base offset `base` and `base + j`, backtracked
from the longest run. -/
def slTrySpaces (alts : List (List Char)) (rest : List Char) (base : Nat) :
    Nat → Option (Nat × Nat × List Char)
  | 0 => slFinish alts rest base
  | j + 1 =>
    match slFinish alts rest (base + (j + 1)) with
    | some r => some r
    | none => slTrySpaces alts rest base j

/-- Greedy `(delimiter)+`, backtracked from the maximal repetition count. -/
def slTryReps (alts : List (List Char)) (L : Nat) (rest : List Char) :
    Nat → Option (Nat × Nat × List Char)
  | 0 => none
  | k + 1 =>
    let base := (k + 1) * L
    match slTrySpaces alts rest base (spaceTabRun (rest.drop base)) with
    | some r => some r
    | none => slTryReps alts L rest k

/-- Match of the single-line template at position `p` of `s`
(the delimiter is passed as its unescaped literal). -/
def slMatchAt (delimLit : List Char) (alts : List (List Char)) (s : List Char)
    (p : Nat) : Option (Nat × Nat × List Char) :=
  if delimLit.isEmpty then none
  else
    let rest := s.drop p
    slTryReps alts delimLit.length rest
      (maxReps true ⟨delimLit, false⟩ rest.length rest)

/-- The plain-text single-line template `(^)+([ \t]*[ \t]*)(t1|..|tn)+(.*)`
(multiline). -/
def ptMatchAt (alts : List (List Char)) (s : List Char) (p : Nat) :
    Option (Nat × Nat × List Char) :=
  if !lineStartAt s p then none
  else
    let rest := s.drop p
    slTrySpaces alts rest 0 (spaceTabRun rest)

/-! ### `exec` loops -/

/-- One match of a scanner regex: absolute start, total length, absolute
start of the relevant capture, and the capture text. -/
structure MatchRec where
  index : Nat
  len : Nat
  capIndex : Nat
  cap : List Char
deriving Repr, DecidableEq

/-- Leftmost match at or after `p` (the regex engine retries at successive
positions). -/
def execFind (matchAt : Nat → Option (Nat × Nat × List Char)) (len : Nat) :
    Nat → Nat → Option MatchRec
  | 0, _ => none
  | fuel + 1, p =>
    match matchAt p with
    | some (l, cs, cap) => some ⟨p, l, p + cs, cap⟩
    | none => if p < len then execFind matchAt len fuel (p + 1) else none

/-- Repeated `exec` with the `g` flag: resume at the previous match end.
(The source's `while` loop would not terminate on an empty match; all
reachable matches have positive length, and the loop is modelled as
advancing at least one position.) -/
def execLoop (matchAt : Nat → Option (Nat × Nat × List Char)) (len : Nat) :
    Nat → Nat → List MatchRec
  | 0, _ => []
  | fuel + 1, pos =>
    match execFind matchAt len (len + 1 - pos) pos with
    | none => []
    | some m => m :: execLoop matchAt len fuel (m.index + max m.len 1)

def execAll (matchAt : Nat → Option (Nat × Nat × List Char)) (len : Nat) :
    List MatchRec :=
  execLoop matchAt len (len + 1) 0

/-! ### The block template `(^|[ \t])(blockStart[\s])+([\s\S]*?)(blockEnd)` -/

/-- Lazy `([\s\S]*?)` before the end delimiter: distance to the first
position where `beLit` matches. -/
def lazyFindEnd (ci : Bool) (beLit : List Char) : Nat → List Char → Option Nat
  | 0, _ => none
  | fuel + 1, text =>
    if litPrefix ci beLit text then some 0
    else
      match text with
      | [] => none
      | _ :: rest => (lazyFindEnd ci beLit fuel rest).map (· + 1)

/-- Greedy `(unit)+` backtracked from `k` repetitions, each followed by the
lazy interior and the end delimiter.  Returns the length consumed after the
leading alternative. -/
def blockTryReps (ci : Bool) (beLit : List Char) (u : Nat) (rest1 : List Char) :
    Nat → Option Nat
  | 0 => none
  | k + 1 =>
    let q := (k + 1) * u
    match lazyFindEnd ci beLit ((rest1.drop q).length + 1) (rest1.drop q) with
    | some i => some (q + i + beLit.length)
    | none => blockTryReps ci beLit u rest1 k

/-- Match of the block (or doc-block) outer template at position `p`:
`(^|[ \t])` tried in alternation order, then the repetition of `unit`,
the lazy interior and the end delimiter. -/
def blockMatchAt (ci : Bool) (u : RepUnit) (beLit : List Char) (s : List Char)
    (p : Nat) : Option (Nat × Nat × List Char) :=
  let tryLead : Nat → Option (Nat × Nat × List Char) := fun lead =>
    let rest1 := s.drop (p + lead)
    (blockTryReps ci beLit (unitLen u) rest1
        (maxReps ci u rest1.length rest1)).map (fun l => (lead + l, 0, []))
  match (if lineStartAt s p then tryLead 0 else none) with
  | some r => some r
  | none =>
    match s.drop p with
    | c :: _ => if c == ' ' || c == '\t' then tryLead 1 else none
    | [] => none

/-! ### The per-line-within-block templates: group 2 of leading
whitespace (with a literal star for the doc-block variant), the tag
alternation, `([ ]*|[:])+`, and a group 5 of one character that is
neither star nor slash followed by the rest of the line -/

/-- Run of characters `([ ]*|[:])+` can consume. -/
def g4Run (text : List Char) : Nat :=
  (text.takeWhile (fun c => c == ' ' || c == ':')).length

/-- Group 5: one character that is neither `*` nor `/`, then the rest of
the line (`[^\r\n]*`). -/
def g5At (text : List Char) : Option Nat :=
  match text with
  | [] => none
  | c :: rest =>
    if c == '*' || c == '/' then none
    else some (1 + (rest.takeWhile (fun c2 => !lineTermChar c2)).length)

/-- Groups 4 and 5, group 4 backtracked from `t4` consumed characters. -/
def innerTail (text : List Char) : Nat → Option Nat
  | 0 => g5At text
  | t4 + 1 =>
    match g5At (text.drop (t4 + 1)) with
    | some g5 => some (t4 + 1 + g5)
    | none => innerTail text t4

/-- Group 3 (ordered tag alternation) followed by groups 4 and 5; a failing
continuation backtracks to the next alternative. -/
def innerAlts (alts : List (List Char)) (text : List Char) :
    Option (Nat × List Char) :=
  match alts with
  | [] => none
  | a :: rest =>
    let lit := patternLiteral a
    if litPrefix true lit text then
      match innerTail (text.drop lit.length) (g4Run (text.drop lit.length)) with
      | some t45 => some (lit.length + t45, text.take lit.length)
      | none => innerAlts rest text
    else innerAlts rest text

/-- Group 2 `([ \t]*[ \t]*)` of the block per-line template, backtracked
from `j` characters.  Returns `(length, group2Length, capture)`. -/
def innerBlockG2 (alts : List (List Char)) (rest : List Char) :
    Nat → Option (Nat × Nat × List Char)
  | 0 => (innerAlts alts rest).map (fun r => (r.1, 0, r.2))
  | j + 1 =>
    match innerAlts alts (rest.drop (j + 1)) with
    | some (l, cap) => some (j + 1 + l, j + 1, cap)
    | none => innerBlockG2 alts rest j

/-- The `[ \t]*` after the `\*` of the doc-block group 2, backtracked from
`b` characters. -/
def innerJsdocB (alts : List (List Char)) (a : Nat) (afterStar : List Char) :
    Nat → Option (Nat × Nat × List Char)
  | 0 => (innerAlts alts afterStar).map (fun r => (a + 1 + r.1, a + 1, r.2))
  | b + 1 =>
    match innerAlts alts (afterStar.drop (b + 1)) with
    | some (l, cap) => some (a + 1 + (b + 1) + l, a + 1 + (b + 1), cap)
    | none => innerJsdocB alts a afterStar b

/-- Group 2 `([ \t]*\*[ \t]*)` of the doc-block per-line template: the
leading `[ \t]*` must end exactly at a `*` (backtracking cannot place the
literal `*` on a space). -/
def innerJsdocG2 (alts : List (List Char)) (rest : List Char) :
    Option (Nat × Nat × List Char) :=
  let a := spaceTabRun rest
  match rest.drop a with
  | '*' :: afterStar => innerJsdocB alts a afterStar (spaceTabRun afterStar)
  | _ => none

/-- Match of a per-line template at position `p` of the comment block. -/
def innerMatchAt (jsdoc : Bool) (alts : List (List Char)) (t : List Char)
    (p : Nat) : Option (Nat × Nat × List Char) :=
  if !lineStartAt t p then none
  else
    let rest := t.drop p
    if jsdoc then innerJsdocG2 alts rest
    else innerBlockG2 alts rest (spaceTabRun rest)

/-! ### The Markdown list-item template
`^[ \t]*(\* |- |\* \[ \] |- \[ \])[ \t]*(t1|..|tn)+(.*)` -/

def mdBullets : List (List Char) :=
  [['*', ' '], ['-', ' '],
   ['*', ' ', '[', ' ', ']', ' '], ['-', ' ', '[', ' ', ']', ' ']]

/-- Ordered bullet alternation with its continuation. -/
def mdBulletAlt (alts : List (List Char)) (rest1 : List Char) :
    List (List Char) → Option (Nat × Nat × List Char)
  | [] => none
  | b :: bs =>
    if litPrefix true b rest1 then
      match slTrySpaces alts (rest1.drop b.length) 0
          (spaceTabRun (rest1.drop b.length)) with
      | some (l, cs, cap) => some (b.length + l, b.length + cs, cap)
      | none => mdBulletAlt alts rest1 bs
    else mdBulletAlt alts rest1 bs

/-- Leading `[ \t]*`, backtracked from `j` characters. -/
def mdLeadSpaces (alts : List (List Char)) (rest : List Char) :
    Nat → Option (Nat × Nat × List Char)
  | 0 => mdBulletAlt alts rest mdBullets
  | j + 1 =>
    match mdBulletAlt alts (rest.drop (j + 1)) mdBullets with
    | some (l, cs, cap) => some (j + 1 + l, j + 1 + cs, cap)
    | none => mdLeadSpaces alts rest j

def mdTextMatchAt (alts : List (List Char)) (t : List Char) (p : Nat) :
    Option (Nat × Nat × List Char) :=
  if !lineStartAt t p then none
  else
    let rest := t.drop p
    mdLeadSpaces alts rest (spaceTabRun rest)

/-! ### The fence template (backtick fence with a word language hint) -/

def backtickChar : Char := Char.ofNat 96

def fence3 : List Char := [backtickChar, backtickChar, backtickChar]

def isWordChar (c : Char) : Bool :=
  ('a' ≤ c && c ≤ 'z') || ('A' ≤ c && c ≤ 'Z') || ('0' ≤ c && c ≤ '9') || c == '_'

structure FenceMatch where
  index : Nat
  len : Nat
  hint : List Char
  codeBlock : List Char
deriving Repr, DecidableEq

/-- Match of the fence template at position `p`: the `\s*` runs and the
`\w+` hint are over disjoint character classes, so the greedy splits are
forced; the interior is lazy up to the closing fence.  (When no closing
fence follows, shrinking the greedy runs cannot create one, so the
template fails.) -/
def fenceMatchAt (s : List Char) (p : Nat) : Option FenceMatch :=
  let rest := s.drop p
  if !litPrefix false fence3 rest then none
  else
    let afterTicks := rest.drop 3
    let w1 := (afterTicks.takeWhile isJsWS).length
    let afterW1 := afterTicks.drop w1
    let wlen := (afterW1.takeWhile isWordChar).length
    if wlen == 0 then none
    else
      let afterWord := afterW1.drop wlen
      let w2 := (afterWord.takeWhile isJsWS).length
      let interiorStart := afterWord.drop w2
      match lazyFindEnd false fence3 (interiorStart.length + 1) interiorStart with
      | some i =>
        some { index := p, len := 3 + w1 + wlen + w2 + i + 3
               hint := afterW1.take wlen, codeBlock := interiorStart.take i }
      | none => none

def fenceFind (s : List Char) : Nat → Nat → Option FenceMatch
  | 0, _ => none
  | fuel + 1, p =>
    match fenceMatchAt s p with
    | some fm => some fm
    | none => if p < s.length then fenceFind s fuel (p + 1) else none

def fenceLoop (s : List Char) : Nat → Nat → List FenceMatch
  | 0, _ => []
  | fuel + 1, pos =>
    match fenceFind s (s.length + 1 - pos) pos with
    | none => []
    | some fm => fm :: fenceLoop s fuel (fm.index + max fm.len 1)

def fenceExec (s : List Char) : List FenceMatch := fenceLoop s (s.length + 1) 0

/-- `String.indexOf`: position of the first occurrence of `sub` in the
text (`0` for the empty string; the callers only ever search for an actual
substring). -/
def indexOfAux (sub : List Char) : Nat → List Char → Nat
  | 0, _ => 0
  | fuel + 1, t =>
    if litPrefix false sub t then 0
    else
      match t with
      | [] => 0
      | _ :: rest => 1 + indexOfAux sub fuel rest

def indexOfList (sub full : List Char) : Nat := indexOfAux sub (full.length + 1) full

/-! ## The four span scanners and the fence recursor -/

/-- The matches of the single-line regex built by `genSingleLineRegex`
over the scanned text.  When the language is unsupported the source's
regex is the empty pattern, on which its `exec` loop would never produce
a tagged decoration (it would in fact not terminate); this is modelled as
producing no matches. -/
def singleLineMatches (input : Input) (s : IParserState) : List MatchRec :=
  match input with
  | ⟨document, _languageCode, range, contributions, _registry, tags⟩ =>
    let text := getTextChars document.data range
    let alts := tags.map (fun t => t.escapedTag.data)
    if !s.supportedLanguage then []
    else if s.isPlainText && contributions.highlightPlainText then
      execAll (ptMatchAt alts text) text.length
    else
      execAll (slMatchAt (patternLiteral s.delimiter.data) alts text) text.length

/-- `findSingleLineComments`. -/
def findSingleLineComments (input : Input) (s : IParserState) : List Decoration :=
  match input with
  | ⟨document, languageCode, range, contributions, registry, tags⟩ =>
    if !s.highlightSingleLineComments then []
    else
      let offset := rangeOffset range
      let ms := singleLineMatches ⟨document, languageCode, range, contributions, registry, tags⟩ s
      ms.filterMap fun m =>
        if s.ignoreFirstLine && lineOf document.data (offset + m.index) == 0
            && charOf document.data (offset + m.index) == 0 then
          none
        else
          match tags.find? (fun item => jsToLower item.tag.data == jsToLower m.cap) with
          | some matchTag =>
            some { decoration := matchTag.decoration
                   startOffset := offset + m.index
                   endOffset := offset + m.index + m.len }
          | none => none

/-- The outer block-comment regions found by `findBlockComments`
(its first, non-greedy pass). -/
def blockRegions (input : Input) (s : IParserState) : List MatchRec :=
  match input with
  | ⟨document, _languageCode, range, _contributions, _registry, _tags⟩ =>
    let text := getTextChars document.data range
    execAll
      (blockMatchAt false ⟨patternLiteral s.blockCommentStart.data, true⟩
        (patternLiteral s.blockCommentEnd.data) text)
      text.length

/-- The matches of a per-line-within-block regex (`commentRegEx` in the
source) over one matched comment block. -/
def blockLineMatches (tags : List CommentTag) (jsdoc : Bool)
    (commentBlock : List Char) : List MatchRec :=
  execAll (innerMatchAt jsdoc (tags.map (fun t => t.escapedTag.data)) commentBlock)
    commentBlock.length

/-- `findBlockComments`. -/
def findBlockComments (input : Input) (s : IParserState) : List Decoration :=
  match input with
  | ⟨document, _languageCode, range, _contributions, _registry, tags⟩ =>
    if !s.highlightMultilineComments then []
    else
      let text := getTextChars document.data range
      let offset := rangeOffset range
      (blockRegions input s).flatMap fun bm =>
        let commentBlock := (text.drop bm.index).take bm.len
        let lines := blockLineMatches tags false commentBlock
        lines.filterMap fun line =>
          match tags.find? (fun item => jsToLower item.tag.data == jsToLower line.cap) with
          | some matchTag =>
            some { decoration := matchTag.decoration
                   startOffset := offset + bm.index + line.capIndex
                   endOffset := offset + bm.index + line.index + line.len }
          | none => none

/-- The `/** ... */` regions the JSDoc scanner finds (its fixed outer
pattern). -/
def jsdocRegions (input : Input) : List MatchRec :=
  match input with
  | ⟨document, _languageCode, range, _contributions, _registry, _tags⟩ =>
    let text := getTextChars document.data range
    execAll (blockMatchAt false ⟨['/', '*', '*'], false⟩ ['*', '/'] text) text.length

/-- `findJSDocComments`: the fixed `/** ... */` outer pattern with the
doc-block per-line template. -/
def findJSDocComments (input : Input) (s : IParserState) : List Decoration :=
  match input with
  | ⟨document, languageCode, range, contributions, registry, tags⟩ =>
    if !s.highlightMultilineComments && !s.highlightJSDoc then []
    else
      let text := getTextChars document.data range
      let offset := rangeOffset range
      let blocks := jsdocRegions ⟨document, languageCode, range, contributions, registry, tags⟩
      blocks.flatMap fun bm =>
        let commentBlock := (text.drop bm.index).take bm.len
        let lines := blockLineMatches tags true commentBlock
        lines.filterMap fun line =>
          match tags.find? (fun item => jsToLower item.tag.data == jsToLower line.cap) with
          | some matchTag =>
            some { decoration := matchTag.decoration
                   startOffset := offset + bm.index + line.capIndex
                   endOffset := offset + bm.index + line.index + line.len }
          | none => none

/-- The matches of the Markdown list-item regex over the scanned text. -/
def markdownTextMatches (input : Input) : List MatchRec :=
  match input with
  | ⟨document, _languageCode, range, _contributions, _registry, tags⟩ =>
    let text := getTextChars document.data range
    execAll (mdTextMatchAt (tags.map (fun t => t.escapedTag.data)) text) text.length

/-- `findMarkdownTextComments`.  Note that the source computes the
decoration positions from `match.index` without adding the sub-range
offset. -/
def findMarkdownTextComments (input : Input) : List Decoration :=
  match input with
  | ⟨document, languageCode, range, contributions, registry, tags⟩ =>
    if languageCode != "markdown" then []
    else if !contributions.highlightMarkdown then []
    else
      let ms := markdownTextMatches ⟨document, languageCode, range, contributions, registry, tags⟩
      ms.filterMap fun m =>
        match tags.find? (fun item => jsToLower item.tag.data == jsToLower m.cap) with
        | some matchTag =>
          some { decoration := matchTag.decoration
                 startOffset := m.index
                 endOffset := m.index + m.len }
        | none => none

/-- The input the fence recursor scans one fence with: the hint becomes
the language, the range narrows to the fence interior located via
`match[0].indexOf(codeBlock)` (absolute document coordinates, the source's
`positionAt(match.index + codeBLockIndex)`). -/
def fenceInnerInput (input : Input) (fm : FenceMatch) : Input :=
  match input with
  | ⟨document, _languageCode, range, contributions, registry, tags⟩ =>
    let text := getTextChars document.data range
    let matched := (text.drop fm.index).take fm.len
    let codeBlockIndex := indexOfList fm.codeBlock matched
    let startOff := fm.index + codeBlockIndex
    ⟨document, String.mk fm.hint,
     some (startOff, startOff + fm.codeBlock.length),
     contributions, registry, tags⟩

/-- `findMarkdownCodeComments`: locate fences, substitute the hint
language, narrow the range to the fence interior (in document
coordinates), rebuild the parse state and re-invoke the single-line and
block scanners. -/
def findMarkdownCodeComments (input : Input) : List Decoration :=
  match input with
  | ⟨document, languageCode, range, contributions, registry, tags⟩ =>
    if languageCode != "markdown" then []
    else
      let text := getTextChars document.data range
      (fenceExec text).flatMap fun fm =>
        let newInput :=
          fenceInnerInput ⟨document, languageCode, range, contributions, registry, tags⟩ fm
        let newState := processState newInput
        findSingleLineComments newInput newState ++ findBlockComments newInput newState

/-! ## Aggregation (source: `Parser.UpdateDecorations`) -/

/-- All decorations of one scan, in the order `UpdateDecorations` collects
them. -/
def scanAll (input : Input) : List Decoration :=
  let state := processState input
  findSingleLineComments input state ++ findBlockComments input state
    ++ findJSDocComments input state ++ findMarkdownTextComments input
    ++ findMarkdownCodeComments input

/-- The per-tag full-replacement range sets handed to the styling
collaborator. -/
def updateDecorations (input : Input) : List (Nat × List (Nat × Nat)) :=
  let ds := scanAll input
  input.tags.map fun t =>
    (t.decoration,
     (ds.filter (fun d => d.decoration == t.decoration)).map
       (fun d => (d.startOffset, d.endOffset)))

/-! ## Statement vocabulary -/

/-- Offset `e` sits at the end of a line of `t`: either at the very end of
the text or immediately before a line terminator. -/
def endsAtEol (t : List Char) (e : Nat) : Prop :=
  e = t.length ∨ ∃ c, t[e]? = some c ∧ lineTermChar c

/-- The decoration's style handle is the one of the first registered tag
whose text case-insensitively equals the captured token `cap`. -/
def styleOfCapture (tags : List CommentTag) (cap : List Char) (d : Decoration) : Prop :=
  ∃ t : CommentTag,
    tags.find? (fun item => jsToLower item.tag.data == jsToLower cap) = some t
    ∧ t ∈ tags ∧ d.decoration = t.decoration
    ∧ jsToLower t.tag.data = jsToLower cap

/-- `d` is an emission of the single-line scanner: its range is exactly
the span of one match of the scan, and its style handle comes from the
tag token that match captured. -/
def slEmission (input : Input) (s : IParserState) (d : Decoration) : Prop :=
  ∃ m ∈ singleLineMatches input s,
    d.startOffset = rangeOffset input.range + m.index
    ∧ d.endOffset = rangeOffset input.range + m.index + m.len
    ∧ styleOfCapture input.tags m.cap d

/-- `d` is an emission of a two-pass (block or doc-block) scan with outer
regions `regions`: its range is placed by an inner tag-line match of one
of the regions (starting at that line's captured tag token), and its
style handle comes from the token that line captured. -/
def innerEmission (regions : List MatchRec) (tags : List CommentTag) (jsdoc : Bool)
    (text : List Char) (offset : Nat) (d : Decoration) : Prop :=
  ∃ bm ∈ regions,
    ∃ line ∈ blockLineMatches tags jsdoc ((text.drop bm.index).take bm.len),
      d.startOffset = offset + bm.index + line.capIndex
      ∧ d.endOffset = offset + bm.index + line.index + line.len
      ∧ styleOfCapture tags line.cap d

def blockEmission (input : Input) (s : IParserState) (d : Decoration) : Prop :=
  innerEmission (blockRegions input s) input.tags false
    (getTextChars input.document.data input.range) (rangeOffset input.range) d

def jsdocEmission (input : Input) (_s : IParserState) (d : Decoration) : Prop :=
  innerEmission (jsdocRegions input) input.tags true
    (getTextChars input.document.data input.range) (rangeOffset input.range) d

/-- `d` is an emission of the Markdown list-item scanner: its range is
exactly the span of one match and its style comes from that match's
captured token. -/
def mdTextEmission (input : Input) (d : Decoration) : Prop :=
  ∃ m ∈ markdownTextMatches input,
    d.startOffset = m.index
    ∧ d.endOffset = m.index + m.len
    ∧ styleOfCapture input.tags m.cap d

/-- `d` is an emission of the fence recursor: it comes from the
single-line or block scan of the inner input of some located fence. -/
def fenceEmission (input : Input) (d : Decoration) : Prop :=
  ∃ fm ∈ fenceExec (getTextChars input.document.data input.range),
    slEmission (fenceInnerInput input fm) (processState (fenceInnerInput input fm)) d
    ∨ blockEmission (fenceInnerInput input fm) (processState (fenceInnerInput input fm)) d

/-! ## Concrete instances used by the claim theorems -/

def todoItem : TagContribution := ⟨"TODO", "#ff2d00", false, false, false, false, ""⟩

def todoTags : List CommentTag := setTags [todoItem]

def baseContribs : Contributions :=
  { highlightMarkdown := true, multilineComments := true, useJSDocStyle := false
    highlightPlainText := false, tags := [todoItem] }

/-- A registry where language `c` has both comment forms. -/
def regFull : String → Option CommentConfig := fun l =>
  if l = "c" then some ⟨some "//", some ("/*", "*/")⟩ else none

/-- A registry where language `c` has only a line comment. -/
def regLineOnly : String → Option CommentConfig := fun l =>
  if l = "c" then some ⟨some "//", none⟩ else none

/-- The empty registry: every language is unsupported. -/
def regNone : String → Option CommentConfig := fun _ => none

/-- `python` with a line comment and a block-comment pair. -/
def regPythonFull : String → Option CommentConfig := fun l =>
  if l = "python" then some ⟨some "#", some ("\"\"\"", "\"\"\"")⟩ else none

/-- `python` with only its line comment. -/
def regPythonLine : String → Option CommentConfig := fun l =>
  if l = "python" then some ⟨some "#", none⟩ else none

/-- Fence-hint languages: `python` with both forms, `bash` line-only. -/
def regMarkdownInner : String → Option CommentConfig := fun l =>
  if l = "python" then some ⟨some "#", some ("\"\"\"", "\"\"\"")⟩
  else if l = "bash" then some ⟨some "#", none⟩
  else none

/-- `css`: only a block-comment pair, no line comment. -/
def regCss : String → Option CommentConfig := fun l =>
  if l = "css" then some ⟨none, some ("/*", "*/")⟩ else none

def mkInput (doc lang : String) (reg : String → Option CommentConfig) : Input :=
  ⟨doc, lang, none, baseContribs, reg, todoTags⟩

/-- Two tag declarations that collide case-insensitively. -/
def dupItems : List TagContribution :=
  [⟨"TODO", "#ff2d00", false, false, false, false, ""⟩,
   ⟨"todo", "#00ff2d", false, false, false, false, ""⟩]

def dupTags : List CommentTag := setTags dupItems

def dupInput (doc : String) : Input := ⟨doc, "c", none, baseContribs, regFull, dupTags⟩

/-- A tag whose text is a closing bracket. -/
def bracketItem : TagContribution := ⟨"]", "#ff2d00", false, false, false, false, ""⟩

/-! # Theorems -/

/-! ## Generic facts about the matchers -/

theorem takeWhile_length_le (p : Char → Bool) (t : List Char) :
    (t.takeWhile p).length ≤ t.length :=
  (List.takeWhile_sublist p).length_le

theorem takeWhile_length_spec (p : Char → Bool) (t : List Char) :
    (t.takeWhile p).length = t.length ∨
      ∃ c, t[(t.takeWhile p).length]? = some c ∧ p c = false := by
  induction t with
  | nil => exact Or.inl rfl
  | cons c rest ih =>
    by_cases hc : p c
    · rw [List.takeWhile_cons_of_pos hc]
      rcases ih with h | ⟨d, hd, hpd⟩
      · exact Or.inl (by simp [h])
      · exact Or.inr ⟨d, by simpa using hd, hpd⟩
    · rw [List.takeWhile_cons_of_neg (by simpa using hc)]
      exact Or.inr ⟨c, by simp, by simpa using hc⟩

theorem lineRest_le (t : List Char) : lineRest t ≤ t.length :=
  takeWhile_length_le _ t

theorem lineRest_spec (t : List Char) :
    lineRest t = t.length ∨ ∃ c, t[lineRest t]? = some c ∧ lineTermChar c := by
  rcases takeWhile_length_spec (fun c => !lineTermChar c) t with h | ⟨c, hc, hp⟩
  · exact Or.inl h
  · exact Or.inr ⟨c, hc, by simpa using hp⟩

theorem spaceTabRun_le (t : List Char) : spaceTabRun t ≤ t.length :=
  takeWhile_length_le _ t

theorem litPrefix_length {ci : Bool} :
    ∀ {l t : List Char}, litPrefix ci l t = true → l.length ≤ t.length
  | [], _, _ => Nat.zero_le _
  | c :: cs, [], h => by simp [litPrefix] at h
  | c :: cs, x :: ts, h => by
    simp only [litPrefix, Bool.and_eq_true] at h
    exact Nat.succ_le_succ (litPrefix_length h.2)

theorem firstAlt_le {ci : Bool} :
    ∀ {alts : List (List Char)} {text : List Char} {n : Nat},
      firstAlt ci alts text = some n → n ≤ text.length
  | [], _, _, h => by simp [firstAlt] at h
  | a :: rest, text, n, h => by
    rw [firstAlt] at h
    split at h
    · cases h
      exact litPrefix_length ‹_›
    · exact firstAlt_le h

theorem altTail_le (ci : Bool) (alts : List (List Char)) :
    ∀ (fuel : Nat) (text : List Char), (altTail ci alts fuel text).1 ≤ text.length := by
  intro fuel
  induction fuel with
  | zero => intro text; simp [altTail]
  | succ f ih =>
    intro text
    rw [altTail]
    cases hfa : firstAlt ci alts text with
    | none => simp
    | some n =>
      have hn := firstAlt_le hfa
      by_cases h0 : n == 0
      · simp [h0]
      · simp only [h0, Bool.false_eq_true, if_false]
        have := ih (text.drop n)
        rw [List.length_drop] at this
        cases ht : altTail ci alts f (text.drop n) with
        | mk m rest2 =>
          rw [ht] at this
          cases rest2 with
          | mk cs co =>
            cases co <;> simp at this ⊢ <;> omega

theorem altPlus_le {ci : Bool} {alts : List (List Char)} {text : List Char}
    {n cs : Nat} {cap : List Char}
    (h : altPlus ci alts text = some (n, cs, cap)) : n ≤ text.length := by
  rw [altPlus] at h
  cases hfa : firstAlt ci alts text with
  | none => rw [hfa] at h; cases h
  | some k =>
    rw [hfa] at h
    have hk := firstAlt_le hfa
    by_cases h0 : k == 0
    · simp only [h0, if_true] at h
      cases h
      exact Nat.zero_le _
    · simp only [h0, Bool.false_eq_true, if_false] at h
      have ht := altTail_le ci alts text.length (text.drop k)
      rw [List.length_drop] at ht
      cases hat : altTail ci alts text.length (text.drop k) with
      | mk m rest2 =>
        rw [hat] at h ht
        cases rest2 with
        | mk cs2 co =>
          cases co <;> simp at h ht <;> omega

theorem endsAtEol_abs {s : List Char} {p l : Nat} (hp : p ≤ s.length)
    (h : endsAtEol (s.drop p) l) : endsAtEol s (p + l) := by
  rcases h with h | ⟨c, hc, ht⟩
  · left
    rw [h, List.length_drop]
    omega
  · right
    refine ⟨c, ?_, ht⟩
    rw [← List.getElem?_drop]
    exact hc

theorem slFinish_eol {alts : List (List Char)} {rest : List Char} {c l cs : Nat}
    {cap : List Char} (hc : c ≤ rest.length)
    (h : slFinish alts rest c = some (l, cs, cap)) : endsAtEol rest l := by
  rw [slFinish] at h
  cases hap : altPlus true alts (rest.drop c) with
  | none => rw [hap] at h; cases h
  | some r =>
    obtain ⟨n, cs2, cap2⟩ := r
    rw [hap] at h
    cases h
    have hn : n ≤ rest.length - c := by
      have := altPlus_le hap
      rwa [List.length_drop] at this
    rcases lineRest_spec (rest.drop (c + n)) with h1 | ⟨ch, hch, hterm⟩
    · left
      rw [h1, List.length_drop]
      omega
    · right
      refine ⟨ch, ?_, hterm⟩
      rw [← List.getElem?_drop]
      exact hch

theorem slTrySpaces_eol {alts : List (List Char)} {rest : List Char} {base : Nat} :
    ∀ {j l cs : Nat} {cap : List Char}, base + j ≤ rest.length →
      slTrySpaces alts rest base j = some (l, cs, cap) → endsAtEol rest l := by
  intro j
  induction j with
  | zero =>
    intro l cs cap hb h
    rw [slTrySpaces] at h
    exact slFinish_eol (by omega) h
  | succ j ih =>
    intro l cs cap hb h
    rw [slTrySpaces] at h
    cases hfin : slFinish alts rest (base + (j + 1)) with
    | some r =>
      rw [hfin] at h
      cases h
      exact slFinish_eol (by omega) hfin
    | none =>
      rw [hfin] at h
      exact ih (by omega) h

theorem slTryReps_eol {alts : List (List Char)} {L : Nat} {rest : List Char} :
    ∀ {k l cs : Nat} {cap : List Char}, k * L ≤ rest.length →
      slTryReps alts L rest k = some (l, cs, cap) → endsAtEol rest l := by
  intro k
  induction k with
  | zero =>
    intro l cs cap _ h
    rw [slTryReps] at h
    cases h
  | succ k ih =>
    intro l cs cap hk h
    rw [slTryReps] at h
    have hrun : (k + 1) * L + spaceTabRun (rest.drop ((k + 1) * L)) ≤ rest.length := by
      have h1 := spaceTabRun_le (rest.drop ((k + 1) * L))
      rw [List.length_drop] at h1
      omega
    cases hts : slTrySpaces alts rest ((k + 1) * L)
        (spaceTabRun (rest.drop ((k + 1) * L))) with
    | some r =>
      rw [hts] at h
      cases h
      exact slTrySpaces_eol hrun hts
    | none =>
      rw [hts] at h
      refine ih ?_ h
      calc k * L ≤ (k + 1) * L := Nat.mul_le_mul_right L (Nat.le_succ k)
        _ ≤ rest.length := hk

theorem unitAt_le {ci : Bool} {u : RepUnit} {text : List Char}
    (h : unitAt ci u text = true) : unitLen u ≤ text.length := by
  rw [unitAt] at h
  simp only [Bool.and_eq_true] at h
  obtain ⟨hlit, hws⟩ := h
  have h1 := litPrefix_length hlit
  rw [unitLen]
  by_cases hw : u.wsAfter
  · simp only [hw, Bool.not_true, Bool.false_or] at hws
    cases hd : text.drop u.lit.length with
    | nil => rw [hd] at hws; cases hws
    | cons c cr =>
      have h2 : (text.drop u.lit.length).length = cr.length + 1 := by rw [hd]; rfl
      rw [List.length_drop] at h2
      simp only [hw, if_true]
      omega
  · simp only [hw, if_false]
    simpa using h1

theorem maxReps_le (ci : Bool) (u : RepUnit) :
    ∀ (fuel : Nat) (text : List Char),
      maxReps ci u fuel text * unitLen u ≤ text.length := by
  intro fuel
  induction fuel with
  | zero => intro text; simp [maxReps]
  | succ f ih =>
    intro text
    rw [maxReps]
    by_cases h0 : unitLen u == 0
    · simp [h0]
    · simp only [h0, Bool.false_eq_true, if_false]
      by_cases hu : unitAt ci u text
      · simp only [hu, if_true]
        have hle := unitAt_le hu
        have h2 := ih (text.drop (unitLen u))
        rw [List.length_drop] at h2
        rw [Nat.add_mul, Nat.one_mul]
        omega
      · simp [hu]

theorem slMatchAt_eol {delimLit : List Char} {alts : List (List Char)}
    {s : List Char} {p l cs : Nat} {cap : List Char}
    (h : slMatchAt delimLit alts s p = some (l, cs, cap)) :
    endsAtEol (s.drop p) l := by
  rw [slMatchAt] at h
  by_cases hd : delimLit.isEmpty
  · simp [hd] at h
  · simp only [hd, Bool.false_eq_true, if_false] at h
    refine slTryReps_eol ?_ h
    have := maxReps_le true ⟨delimLit, false⟩ (s.drop p).length (s.drop p)
    simpa [unitLen] using this

theorem ptMatchAt_eol {alts : List (List Char)} {s : List Char} {p l cs : Nat}
    {cap : List Char} (h : ptMatchAt alts s p = some (l, cs, cap)) :
    endsAtEol (s.drop p) l := by
  rw [ptMatchAt] at h
  by_cases hl : lineStartAt s p
  · simp only [hl, Bool.not_true, Bool.false_eq_true, if_false] at h
    exact slTrySpaces_eol (by simpa using spaceTabRun_le (s.drop p)) h
  · simp [hl] at h

/-! ## The `exec` loop -/

theorem execFind_ge {matchAt : Nat → Option (Nat × Nat × List Char)} {len : Nat} :
    ∀ {fuel p : Nat} {m : MatchRec},
      execFind matchAt len fuel p = some m → p ≤ m.index := by
  intro fuel
  induction fuel with
  | zero => intro p m h; rw [execFind] at h; cases h
  | succ f ih =>
    intro p m h
    rw [execFind] at h
    cases hma : matchAt p with
    | some r =>
      obtain ⟨a, b, c⟩ := r
      rw [hma] at h
      cases h
      exact Nat.le_refl _
    | none =>
      rw [hma] at h
      by_cases hp : p < len
      · simp only [hp, if_true] at h
        exact Nat.le_trans (Nat.le_succ p) (ih h)
      · simp [hp] at h

theorem execFind_spec {matchAt : Nat → Option (Nat × Nat × List Char)} {len : Nat} :
    ∀ {fuel p : Nat} {m : MatchRec}, p ≤ len →
      execFind matchAt len fuel p = some m →
      ∃ cs, m.capIndex = m.index + cs
        ∧ matchAt m.index = some (m.len, cs, m.cap) ∧ m.index ≤ len := by
  intro fuel
  induction fuel with
  | zero => intro p m _ h; rw [execFind] at h; cases h
  | succ f ih =>
    intro p m hp h
    rw [execFind] at h
    cases hma : matchAt p with
    | some r =>
      obtain ⟨a, b, c⟩ := r
      rw [hma] at h
      cases h
      exact ⟨b, rfl, hma, hp⟩
    | none =>
      rw [hma] at h
      by_cases hlt : p < len
      · simp only [hlt, if_true] at h
        exact ih hlt h
      · simp [hlt] at h

theorem execLoop_ge {matchAt : Nat → Option (Nat × Nat × List Char)} {len : Nat} :
    ∀ {fuel pos : Nat} {m : MatchRec},
      m ∈ execLoop matchAt len fuel pos → pos ≤ m.index := by
  intro fuel
  induction fuel with
  | zero => intro pos m h; rw [execLoop] at h; cases h
  | succ f ih =>
    intro pos m h
    rw [execLoop] at h
    cases hf : execFind matchAt len (len + 1 - pos) pos with
    | none => rw [hf] at h; cases h
    | some m0 =>
      rw [hf] at h
      rcases List.mem_cons.mp h with rfl | h2
      · exact execFind_ge hf
      · have h3 := ih h2
        have h4 := execFind_ge hf
        have h5 : m0.index ≤ m0.index + max m0.len 1 := Nat.le_add_right _ _
        omega

theorem execLoop_empty_of_gt {matchAt : Nat → Option (Nat × Nat × List Char)}
    {len : Nat} (fuel pos : Nat) (h : len < pos) :
    execLoop matchAt len fuel pos = [] := by
  cases fuel with
  | zero => rw [execLoop]
  | succ f =>
    rw [execLoop]
    have h0 : len + 1 - pos = 0 := by omega
    rw [h0, execFind]

theorem execLoop_spec {matchAt : Nat → Option (Nat × Nat × List Char)} {len : Nat} :
    ∀ {fuel pos : Nat} {m : MatchRec}, pos ≤ len →
      m ∈ execLoop matchAt len fuel pos →
      ∃ cs, m.capIndex = m.index + cs
        ∧ matchAt m.index = some (m.len, cs, m.cap) ∧ m.index ≤ len := by
  intro fuel
  induction fuel with
  | zero => intro pos m _ h; rw [execLoop] at h; cases h
  | succ f ih =>
    intro pos m hp h
    rw [execLoop] at h
    cases hf : execFind matchAt len (len + 1 - pos) pos with
    | none => rw [hf] at h; cases h
    | some m0 =>
      rw [hf] at h
      rcases List.mem_cons.mp h with rfl | h2
      · exact execFind_spec hp hf
      · by_cases hnext : m0.index + max m0.len 1 ≤ len
        · exact ih hnext h2
        · rw [execLoop_empty_of_gt f (m0.index + max m0.len 1) (by omega)] at h2
          cases h2

theorem execLoop_pairwise (matchAt : Nat → Option (Nat × Nat × List Char))
    (len : Nat) :
    ∀ (fuel pos : Nat),
      List.Pairwise (fun a b : MatchRec => a.index + a.len ≤ b.index ∧ a.index < b.index)
        (execLoop matchAt len fuel pos) := by
  intro fuel
  induction fuel with
  | zero => intro pos; rw [execLoop]; exact List.Pairwise.nil
  | succ f ih =>
    intro pos
    rw [execLoop]
    cases hf : execFind matchAt len (len + 1 - pos) pos with
    | none => exact List.Pairwise.nil
    | some m0 =>
      refine List.Pairwise.cons ?_ (ih _)
      intro b hb
      have hge := execLoop_ge hb
      constructor <;> omega

theorem pairwise_index_inj {l : List MatchRec}
    (h : List.Pairwise (fun a b : MatchRec => a.index + a.len ≤ b.index ∧ a.index < b.index) l) :
    ∀ {m m' : MatchRec}, m ∈ l → m' ∈ l → m.index = m'.index → m = m' := by
  induction h with
  | nil => intro m m' hm _ _; cases hm
  | cons hr _ ih =>
    intro m m' hm hm' he
    rcases List.mem_cons.mp hm with rfl | hm2 <;>
      rcases List.mem_cons.mp hm' with rfl | hm'2
    · rfl
    · exact absurd he (Nat.ne_of_lt (hr _ hm'2).2)
    · exact absurd he.symm (Nat.ne_of_lt (hr _ hm2).2)
    · exact ih hm2 hm'2 he

/-! ## The single-line scanner -/

theorem singleLineMatches_eol (input : Input) (s : IParserState) :
    ∀ {m : MatchRec}, m ∈ singleLineMatches input s →
      endsAtEol (getTextChars input.document.data input.range) (m.index + m.len) := by
  obtain ⟨doc, lang, range, contribs, reg, tags⟩ := input
  intro m hm
  rw [singleLineMatches] at hm
  dsimp only at hm ⊢
  split at hm
  · cases hm
  · split at hm
    · rw [execAll] at hm
      obtain ⟨cs, _, hma, hle⟩ := execLoop_spec (Nat.zero_le _) hm
      exact endsAtEol_abs hle (ptMatchAt_eol hma)
    · rw [execAll] at hm
      obtain ⟨cs, _, hma, hle⟩ := execLoop_spec (Nat.zero_le _) hm
      exact endsAtEol_abs hle (slMatchAt_eol hma)

theorem singleLineMatches_pairwise (input : Input) (s : IParserState) :
    List.Pairwise (fun a b : MatchRec => a.index + a.len ≤ b.index ∧ a.index < b.index)
      (singleLineMatches input s) := by
  obtain ⟨doc, lang, range, contribs, reg, tags⟩ := input
  rw [singleLineMatches]
  split
  · exact List.Pairwise.nil
  · split
    · exact execLoop_pairwise _ _ _ _
    · exact execLoop_pairwise _ _ _ _

/-- Every decoration of the single-line scanner comes from a match: its
style from the first registered tag that case-insensitively equals the
captured token, its range from the match start to the match end. -/
theorem mem_findSingleLineComments (input : Input) (s : IParserState)
    (d : Decoration) (hd : d ∈ findSingleLineComments input s) :
    ∃ m ∈ singleLineMatches input s,
      (input.tags.find? (fun item => jsToLower item.tag.data == jsToLower m.cap)).map
          (fun t => t.decoration) = some d.decoration
      ∧ d.startOffset = rangeOffset input.range + m.index
      ∧ d.endOffset = rangeOffset input.range + m.index + m.len := by
  obtain ⟨doc, lang, range, contribs, reg, tags⟩ := input
  rw [findSingleLineComments] at hd
  dsimp only at hd ⊢
  split at hd
  · cases hd
  · obtain ⟨m, hm, hf⟩ := List.mem_filterMap.mp hd
    refine ⟨m, hm, ?_⟩
    split at hf
    · cases hf
    · cases hfind : tags.find? (fun item => jsToLower item.tag.data == jsToLower m.cap) with
      | none => rw [hfind] at hf; cases hf
      | some t =>
        rw [hfind] at hf
        cases hf
        exact ⟨by simp [hfind], rfl, rfl⟩

theorem styleOfCapture_of_find {tags : List CommentTag} {cap : List Char}
    {t : CommentTag} {d : Decoration}
    (h : tags.find? (fun item => jsToLower item.tag.data == jsToLower cap) = some t)
    (hd : d.decoration = t.decoration) : styleOfCapture tags cap d :=
  ⟨t, h, List.mem_of_find?_eq_some h, hd, by simpa using List.find?_some h⟩

theorem findSingleLineComments_emission (input : Input) (s : IParserState)
    (d : Decoration) (hd : d ∈ findSingleLineComments input s) :
    slEmission input s d := by
  obtain ⟨m, hm, hmap, hs, he⟩ := mem_findSingleLineComments input s d hd
  cases hfind : input.tags.find? (fun item => jsToLower item.tag.data == jsToLower m.cap) with
  | none => rw [hfind] at hmap; cases hmap
  | some t =>
    rw [hfind] at hmap
    exact ⟨m, hm, hs, he, styleOfCapture_of_find hfind (Option.some.inj hmap).symm⟩

/-! ## Emission invariants of the other scanners -/

theorem findBlockComments_emission (input : Input) (s : IParserState)
    (d : Decoration) (hd : d ∈ findBlockComments input s) :
    blockEmission input s d := by
  obtain ⟨doc, lang, range, contribs, reg, tags⟩ := input
  rw [findBlockComments] at hd
  dsimp only at hd ⊢
  split at hd
  · cases hd
  · obtain ⟨bm, hbm, hd2⟩ := List.mem_flatMap.mp hd
    obtain ⟨line, hline, hf⟩ := List.mem_filterMap.mp hd2
    cases hfind : tags.find? (fun item => jsToLower item.tag.data == jsToLower line.cap) with
    | none => rw [hfind] at hf; cases hf
    | some t =>
      rw [hfind] at hf
      cases hf
      exact ⟨bm, hbm, line, hline, rfl, rfl, styleOfCapture_of_find hfind rfl⟩

theorem findJSDocComments_emission (input : Input) (s : IParserState)
    (d : Decoration) (hd : d ∈ findJSDocComments input s) :
    jsdocEmission input s d := by
  obtain ⟨doc, lang, range, contribs, reg, tags⟩ := input
  rw [findJSDocComments] at hd
  dsimp only at hd ⊢
  split at hd
  · cases hd
  · obtain ⟨bm, hbm, hd2⟩ := List.mem_flatMap.mp hd
    obtain ⟨line, hline, hf⟩ := List.mem_filterMap.mp hd2
    cases hfind : tags.find? (fun item => jsToLower item.tag.data == jsToLower line.cap) with
    | none => rw [hfind] at hf; cases hf
    | some t =>
      rw [hfind] at hf
      cases hf
      exact ⟨bm, hbm, line, hline, rfl, rfl, styleOfCapture_of_find hfind rfl⟩

theorem findMarkdownTextComments_emission (input : Input)
    (d : Decoration) (hd : d ∈ findMarkdownTextComments input) :
    mdTextEmission input d := by
  obtain ⟨doc, lang, range, contribs, reg, tags⟩ := input
  rw [findMarkdownTextComments] at hd
  dsimp only at hd ⊢
  split at hd
  · cases hd
  · split at hd
    · cases hd
    · obtain ⟨m, hm, hf⟩ := List.mem_filterMap.mp hd
      cases hfind : tags.find? (fun item => jsToLower item.tag.data == jsToLower m.cap) with
      | none => rw [hfind] at hf; cases hf
      | some t =>
        rw [hfind] at hf
        cases hf
        exact ⟨m, hm, rfl, rfl, styleOfCapture_of_find hfind rfl⟩

theorem findMarkdownCodeComments_emission (input : Input)
    (d : Decoration) (hd : d ∈ findMarkdownCodeComments input) :
    fenceEmission input d := by
  obtain ⟨doc, lang, range, contribs, reg, tags⟩ := input
  rw [findMarkdownCodeComments] at hd
  dsimp only at hd ⊢
  split at hd
  · cases hd
  · obtain ⟨fm, hfm, hd2⟩ := List.mem_flatMap.mp hd
    rcases List.mem_append.mp hd2 with h | h
    · exact ⟨fm, hfm, Or.inl (findSingleLineComments_emission _ _ _ h)⟩
    · exact ⟨fm, hfm, Or.inr (findBlockComments_emission _ _ _ h)⟩

/-! ## Gates and the unsupported-language state -/

theorem findSingleLineComments_gate (input : Input) (s : IParserState)
    (h : s.highlightSingleLineComments = false) :
    findSingleLineComments input s = [] := by
  obtain ⟨doc, lang, range, contribs, reg, tags⟩ := input
  rw [findSingleLineComments]
  dsimp only
  rw [h]
  rfl

theorem findBlockComments_gate (input : Input) (s : IParserState)
    (h : s.highlightMultilineComments = false) :
    findBlockComments input s = [] := by
  obtain ⟨doc, lang, range, contribs, reg, tags⟩ := input
  rw [findBlockComments]
  dsimp only
  rw [h]
  rfl

theorem findJSDocComments_gate (input : Input) (s : IParserState)
    (h1 : s.highlightMultilineComments = false) (h2 : s.highlightJSDoc = false) :
    findJSDocComments input s = [] := by
  obtain ⟨doc, lang, range, contribs, reg, tags⟩ := input
  rw [findJSDocComments]
  dsimp only
  rw [h1, h2]
  rfl

theorem processState_unsupported (doc lang : String) (range : Option (Nat × Nat))
    (contribs : Contributions) (reg : String → Option CommentConfig)
    (tags : List CommentTag)
    (h : GetCommentConfiguration reg lang = none) :
    (processState ⟨doc, lang, range, contribs, reg, tags⟩).highlightSingleLineComments = false
    ∧ (processState ⟨doc, lang, range, contribs, reg, tags⟩).highlightMultilineComments = false
    ∧ (lang ∉ jsFamily →
        (processState ⟨doc, lang, range, contribs, reg, tags⟩).highlightJSDoc = false) := by
  rw [processState]
  dsimp only
  rw [h]
  refine ⟨?_, ?_, ?_⟩
  · split
    · rfl
    · split
      · rfl
      · split <;> rfl
  · split
    · rfl
    · split
      · rfl
      · split <;> rfl
  · intro hnj
    split
    · exact absurd ‹lang ∈ jsFamily› hnj
    · split
      · rfl
      · split <;> rfl

/-! ## Escaping and literal interpretation -/

theorem patternLiteral_cons_escaped (c : Char) (ps : List Char) :
    patternLiteral ('\\' :: c :: ps) = c :: patternLiteral ps := rfl

theorem patternLiteral_cons_plain (c : Char) (ps : List Char) (h : ¬c = '\\') :
    patternLiteral (c :: ps) = c :: patternLiteral ps := by
  rw [patternLiteral.eq_def]
  dsimp only
  rw [if_neg h]

theorem escapeSlashList_cons_slash (ps : List Char) :
    escapeSlashList ('/' :: ps) = '\\' :: '/' :: escapeSlashList ps := rfl

theorem escapeSlashList_cons_plain (c : Char) (ps : List Char) (h : ¬c = '/') :
    escapeSlashList (c :: ps) = c :: escapeSlashList ps := by
  rw [escapeSlashList, if_neg h]

/-- The escaped form `Parser.setTags` builds denotes the original tag text
literally: unescaping it (as the regex engine does) recovers the tag. -/
theorem patternLiteral_setTagsEscape (cs : List Char) :
    patternLiteral (escapeSlashList (escapeList setTagsMeta cs)) = cs := by
  induction cs with
  | nil => rfl
  | cons c rest ih =>
    rw [escapeList]
    by_cases hm : c ∈ setTagsMeta
    · rw [if_pos hm,
        escapeSlashList_cons_plain '\\' _ (by decide),
        escapeSlashList_cons_plain c _ (by
          intro h
          rw [h] at hm
          revert hm
          decide),
        patternLiteral_cons_escaped, ih]
    · rw [if_neg hm]
      by_cases hs : c = '/'
      · rw [hs, escapeSlashList_cons_slash, patternLiteral_cons_escaped, ih]
      · rw [escapeSlashList_cons_plain c _ hs,
          patternLiteral_cons_plain c _ (by
            intro h
            rw [h] at hm
            exact hm (by decide)), ih]

theorem setTags_escapedTag_literal (items : List TagContribution) (t : CommentTag)
    (ht : t ∈ setTags items) : patternLiteral t.escapedTag.data = t.tag.data := by
  rw [setTags] at ht
  obtain ⟨p, _, he⟩ := List.mem_map.mp ht
  cases he
  exact patternLiteral_setTagsEscape _

/-! ## The delimiter produced by `genCommentFormat` -/

theorem genCommentFormat_delimiter_some (sl st sp : Option String)
    (h : strTruthy sl = true) :
    (genCommentFormat sl st sp).delimiter
      = escapeSlashes (escapeRegExp (sl.getD "")) := by
  rw [genCommentFormat]
  simp only [h, if_true]
  split <;> rfl

theorem genCommentFormat_delimiter_none (sl st sp : Option String)
    (h : strTruthy sl = false) :
    (genCommentFormat sl st sp).delimiter = "" := by
  rw [genCommentFormat]
  simp only [h, Bool.false_eq_true, if_false]
  split <;> rfl

theorem strTruthy_false_empty (s : String) (h : strTruthy (some s) = false) :
    s = "" := by
  obtain ⟨l⟩ := s
  cases l with
  | nil => rfl
  | cons c rest => exact absurd h (by simp [strTruthy])

/-! # Claim theorems -/

/-- C1: the claim says every supported language (lookup succeeds) with tag
`TODO` yields exactly one decoration on its single-line comment
`"// TODO: x"`.  The code sets `highlightSingleLineComments` from the
presence of a block-comment start delimiter, contradicting its own comment
that single-line support follows the single-line delimiter: a supported
language whose syntax is `{lineComment: "//"}` yields no decoration at
all, while the identical input with a block pair present yields exactly
the claimed one. -/
theorem c1_single_line_gate_drops_line_only_languages :
    (processState (mkInput "// TODO: x" "c" regLineOnly)).supportedLanguage = true
    ∧ (processState (mkInput "// TODO: x" "c" regLineOnly)).highlightSingleLineComments = false
    ∧ scanAll (mkInput "// TODO: x" "c" regLineOnly) = []
    ∧ findSingleLineComments (mkInput "// TODO: x" "c" regFull)
        (processState (mkInput "// TODO: x" "c" regFull)) = [⟨0, 0, 10⟩] := by
  exact ⟨by decide, by decide, by decide, by decide⟩

/-- C2 (counterexample): for language `javascript` with no CommentSyntax
entry, the JSDoc scanner does not short-circuit: it emits a decoration for
a `/** */` block, because `highlightJSDoc` is set from the language code
alone. -/
theorem c2_counterexample :
    GetCommentConfiguration regNone "javascript" = none
    ∧ findJSDocComments (mkInput "/**\n * TODO x\n */" "javascript" regNone)
        (processState (mkInput "/**\n * TODO x\n */" "javascript" regNone)) = [⟨0, 7, 13⟩]
    ∧ findJSDocComments (mkInput "/**\n * TODO x\n */" "javascript" regNone)
        (processState (mkInput "/**\n * TODO x\n */" "javascript" regNone)) ≠ [] := by
  exact ⟨by decide, by decide, by decide⟩

/-- C2 (amended): for an input whose language has no CommentSyntax entry,
the single-line and block scanners return the empty list, and the JSDoc
scanner does so provided the language is not one of the JSDoc-family
codes; the Markdown scanners are gated by the language id being
`markdown`, not by syntax support. -/
theorem c2_unsupported_scanners (input : Input)
    (h : GetCommentConfiguration input.registry input.languageCode = none) :
    findSingleLineComments input (processState input) = []
    ∧ findBlockComments input (processState input) = []
    ∧ (input.languageCode ∉ jsFamily →
        findJSDocComments input (processState input) = []) := by
  obtain ⟨doc, lang, range, contribs, reg, tags⟩ := input
  have h' : GetCommentConfiguration reg lang = none := h
  obtain ⟨h1, h2, h3⟩ := processState_unsupported doc lang range contribs reg tags h'
  exact ⟨findSingleLineComments_gate _ _ h1, findBlockComments_gate _ _ h2,
    fun hnj => findJSDocComments_gate _ _ h2 (h3 hnj)⟩

theorem c2_unsupported_scanners_witness :
    GetCommentConfiguration regNone "ruby" = none
    ∧ (findSingleLineComments (mkInput "# TODO x" "ruby" regNone)
          (processState (mkInput "# TODO x" "ruby" regNone)) = []
        ∧ findBlockComments (mkInput "# TODO x" "ruby" regNone)
          (processState (mkInput "# TODO x" "ruby" regNone)) = []
        ∧ ((mkInput "# TODO x" "ruby" regNone).languageCode ∉ jsFamily →
            findJSDocComments (mkInput "# TODO x" "ruby" regNone)
              (processState (mkInput "# TODO x" "ruby" regNone)) = [])) :=
  ⟨by decide, c2_unsupported_scanners (mkInput "# TODO x" "ruby" regNone) (by decide)⟩

/-- C3 (counterexample): on `"// TODO: x"` the captured tag token starts
at offset 3, but the emitted decoration starts at offset 0 (the comment
delimiter, i.e. the match start), so the range does not start at the tag
token's start. -/
theorem c3_counterexample :
    findSingleLineComments (mkInput "// TODO: x" "c" regFull)
        (processState (mkInput "// TODO: x" "c" regFull)) = [⟨0, 0, 10⟩]
    ∧ singleLineMatches (mkInput "// TODO: x" "c" regFull)
        (processState (mkInput "// TODO: x" "c" regFull))
      = [⟨0, 10, 3, ['T', 'O', 'D', 'O']⟩]
    ∧ (3 : Nat) ≠ 0 := by
  exact ⟨by decide, by decide, by decide⟩

/-- C3 (amended): every decoration of the single-line scanner spans from
the overall match's start (the comment delimiter) to the end of that
line, and a match whose captured token equals no registered tag produces
no decoration. -/
theorem c3_range_spans_whole_match (input : Input) (s : IParserState) :
    (∀ d ∈ findSingleLineComments input s,
      ∃ m ∈ singleLineMatches input s,
        d.startOffset = rangeOffset input.range + m.index
        ∧ d.endOffset = rangeOffset input.range + m.index + m.len
        ∧ endsAtEol (getTextChars input.document.data input.range) (m.index + m.len))
    ∧ (∀ m ∈ singleLineMatches input s,
        input.tags.find? (fun item => jsToLower item.tag.data == jsToLower m.cap) = none →
        ∀ d ∈ findSingleLineComments input s,
          d.startOffset ≠ rangeOffset input.range + m.index) := by
  constructor
  · intro d hd
    obtain ⟨m, hm, _, hs, he⟩ := mem_findSingleLineComments input s d hd
    exact ⟨m, hm, hs, he, singleLineMatches_eol input s hm⟩
  · intro m hm hnone d hd hcontra
    obtain ⟨m', hm', hmap, hs, _⟩ := mem_findSingleLineComments input s d hd
    have hidx : m'.index = m.index := by omega
    have hmm : m' = m :=
      pairwise_index_inj (singleLineMatches_pairwise input s) hm' hm hidx
    rw [hmm, hnone] at hmap
    cases hmap

theorem c3_range_spans_whole_match_witness :
    (⟨0, 0, 10⟩ : Decoration) ∈ findSingleLineComments (mkInput "// TODO: x" "c" regFull)
        (processState (mkInput "// TODO: x" "c" regFull))
    ∧ ∃ m ∈ singleLineMatches (mkInput "// TODO: x" "c" regFull)
          (processState (mkInput "// TODO: x" "c" regFull)),
        (⟨0, 0, 10⟩ : Decoration).startOffset
            = rangeOffset (mkInput "// TODO: x" "c" regFull).range + m.index
        ∧ (⟨0, 0, 10⟩ : Decoration).endOffset
            = rangeOffset (mkInput "// TODO: x" "c" regFull).range + m.index + m.len
        ∧ endsAtEol (getTextChars (mkInput "// TODO: x" "c" regFull).document.data
            (mkInput "// TODO: x" "c" regFull).range) (m.index + m.len) :=
  ⟨by decide,
   (c3_range_spans_whole_match (mkInput "// TODO: x" "c" regFull)
     (processState (mkInput "// TODO: x" "c" regFull))).1 _ (by decide)⟩

/-- C4: the claim says every Markdown fence whose hint language uses `#`
as single-line delimiter and contains `# TODO fix` yields exactly one
decoration at translated absolute offsets.  For a hint language whose
syntax is `{lineComment: "#"}` only (e.g. `bash`), the recursor yields
nothing: the rebuilt inner parse state has single-line highlighting off
because no block delimiter is present.  With a block pair present
(`python`, via the `py` alias), the claimed decoration appears at the
correct absolute offsets. -/
theorem c4_fence_recursion_gated_on_block_delimiter :
    findMarkdownCodeComments (mkInput "```bash\n# TODO fix\n```" "markdown" regMarkdownInner) = []
    ∧ findMarkdownCodeComments (mkInput "```py\n# TODO fix\n```" "markdown" regMarkdownInner)
        = [⟨0, 6, 16⟩]
    ∧ (fenceExec ("```py\n# TODO fix\n```".data)).map (fun fm => (fm.index, fm.codeBlock))
        = [(0, "# TODO fix\n".data)] := by
  exact ⟨by decide, by decide, by decide⟩

/-- C5 (counterexample): the Tag Registry's escape leaves the regex
metacharacter `]` unescaped — for the tag `"]"` the produced `escapedTag`
is `"]"`, not the fully escaped `"\]"`. -/
theorem c5_counterexample :
    (setTags [bracketItem]).map CommentTag.escapedTag = ["]"]
    ∧ escapeSlashes (escapeRegExp "]") = "\\]"
    ∧ ("]" : String) ≠ "\\]" := by
  exact ⟨by decide, by decide, by decide⟩

/-- C5 (amended): `setTags` escapes exactly the characters
`( ) [ { * + . $ ^ \ | ?` plus forward slashes; `]` and `}` are left
unescaped, but every produced `escapedTag` still denotes its tag
literally as a regex fragment (unescaping it recovers the tag, so it
matches the tag text literally inside an alternation). -/
theorem c5_escapedTag_denotes_tag_literally (items : List TagContribution)
    (t : CommentTag) (ht : t ∈ setTags items) :
    patternLiteral t.escapedTag.data = t.tag.data
    ∧ ∀ (ci : Bool) (text : List Char),
        litPrefix ci (patternLiteral t.escapedTag.data) text
          = litPrefix ci t.tag.data text := by
  have h := setTags_escapedTag_literal items t ht
  exact ⟨h, fun ci text => by rw [h]⟩

theorem c5_escapedTag_denotes_tag_literally_witness :
    (⟨"]", "]", 0⟩ : CommentTag) ∈ setTags [bracketItem]
    ∧ (patternLiteral (⟨"]", "]", 0⟩ : CommentTag).escapedTag.data
          = (⟨"]", "]", 0⟩ : CommentTag).tag.data
        ∧ ∀ (ci : Bool) (text : List Char),
            litPrefix ci (patternLiteral (⟨"]", "]", 0⟩ : CommentTag).escapedTag.data) text
              = litPrefix ci (⟨"]", "]", 0⟩ : CommentTag).tag.data text) :=
  ⟨by decide, c5_escapedTag_denotes_tag_literally [bracketItem] ⟨"]", "]", 0⟩ (by decide)⟩

/-- C6: on `"/* TODO a */ /* TODO b */"` the block scanner's first pass
finds exactly two regions, `[0, 12)` and `[12, 25)` (the second match
including the leading space), not one region spanning both; and in
general the regions of the first pass are emitted left-to-right and never
overlap. -/
theorem c6_adjacent_blocks_two_regions :
    ((blockRegions (mkInput "/* TODO a */ /* TODO b */" "c" regFull)
        (processState (mkInput "/* TODO a */ /* TODO b */" "c" regFull))).map
      (fun m => (m.index, m.len)) = [(0, 12), (12, 13)])
    ∧ (blockRegions (mkInput "/* TODO a */ /* TODO b */" "c" regFull)
        (processState (mkInput "/* TODO a */ /* TODO b */" "c" regFull))).length = 2
    ∧ ∀ (input : Input) (s : IParserState),
        List.Pairwise (fun a b : MatchRec => a.index + a.len ≤ b.index ∧ a.index < b.index)
          (blockRegions input s) := by
  refine ⟨by decide, by decide, ?_⟩
  intro input s
  obtain ⟨doc, lang, range, contribs, reg, tags⟩ := input
  rw [blockRegions]
  exact execLoop_pairwise _ _ _ _

/-- C7: every decoration emitted by any of the scanners is the emission of
an actual match of that scan: its range is exactly the span the scanner
derives from that match (for the two-pass scanners, starting at the
captured tag token of the inner line), and its style handle is the one of
the first registered tag whose text case-insensitively equals the token
that very match captured; concretely, `todo`, `Todo` and `TODO` all
produce the decoration of the tag declared as `TODO`, and with the
duplicate declarations `TODO`/`todo` the earliest-declared tag's handle
(index 0) wins. -/
theorem c7_style_matches_captured_token :
    (∀ (input : Input) (s : IParserState) (d : Decoration),
      (d ∈ findSingleLineComments input s → slEmission input s d)
      ∧ (d ∈ findBlockComments input s → blockEmission input s d)
      ∧ (d ∈ findJSDocComments input s → jsdocEmission input s d)
      ∧ (d ∈ findMarkdownTextComments input → mdTextEmission input d)
      ∧ (d ∈ findMarkdownCodeComments input → fenceEmission input d))
    ∧ findSingleLineComments (mkInput "// todo x" "c" regFull)
        (processState (mkInput "// todo x" "c" regFull)) = [⟨0, 0, 9⟩]
    ∧ findSingleLineComments (mkInput "// Todo x" "c" regFull)
        (processState (mkInput "// Todo x" "c" regFull)) = [⟨0, 0, 9⟩]
    ∧ findSingleLineComments (mkInput "// TODO x" "c" regFull)
        (processState (mkInput "// TODO x" "c" regFull)) = [⟨0, 0, 9⟩]
    ∧ findSingleLineComments (dupInput "// todo x")
        (processState (dupInput "// todo x")) = [⟨0, 0, 9⟩] := by
  refine ⟨?_, by decide, by decide, by decide, by decide⟩
  intro input s d
  exact ⟨findSingleLineComments_emission input s d, findBlockComments_emission input s d,
    findJSDocComments_emission input s d, findMarkdownTextComments_emission input d,
    findMarkdownCodeComments_emission input d⟩

theorem c7_style_matches_captured_token_witness :
    (⟨0, 0, 10⟩ : Decoration) ∈ findSingleLineComments (mkInput "// TODO: x" "c" regFull)
        (processState (mkInput "// TODO: x" "c" regFull))
    ∧ slEmission (mkInput "// TODO: x" "c" regFull)
        (processState (mkInput "// TODO: x" "c" regFull)) (⟨0, 0, 10⟩ : Decoration) :=
  ⟨by decide,
   (c7_style_matches_captured_token.1 (mkInput "// TODO: x" "c" regFull)
     (processState (mkInput "// TODO: x" "c" regFull)) ⟨0, 0, 10⟩).1 (by decide)⟩

/-- C8: the claim says a first-line-suppressed language drops the tagged
comment at offset 0 and keeps the identical comment on line 2.  The
suppression half holds, but for `python` with syntax `{lineComment: "#"}`
(no block pair) the line-2 comment also yields nothing, because
single-line highlighting is gated on a block-comment delimiter; with a
block pair present both halves behave as claimed. -/
theorem c8_first_line_suppression_needs_block_delimiter :
    (processState (mkInput "# TODO: y" "python" regPythonFull)).ignoreFirstLine = true
    ∧ findSingleLineComments (mkInput "# TODO: y" "python" regPythonFull)
        (processState (mkInput "# TODO: y" "python" regPythonFull)) = []
    ∧ findSingleLineComments (mkInput "\n\n# TODO: y" "python" regPythonFull)
        (processState (mkInput "\n\n# TODO: y" "python" regPythonFull)) = [⟨0, 2, 11⟩]
    ∧ findSingleLineComments (mkInput "\n\n# TODO: y" "python" regPythonLine)
        (processState (mkInput "\n\n# TODO: y" "python" regPythonLine)) = [] := by
  exact ⟨by decide, by decide, by decide, by decide⟩

/-- C9: for a language whose CommentSyntax has a blockComment pair but no
truthy lineComment, the parse state's delimiter is the escaped (and
slash-escaped) block-comment start; concretely, for `css` the single-line
scanner then treats `/*` as opening a comment that extends to the end of
the line. -/
theorem c9_block_start_becomes_delimiter (input : Input) (cfg : CommentConfig)
    (bs be : String)
    (h1 : GetCommentConfiguration input.registry input.languageCode = some cfg)
    (h2 : strTruthy cfg.lineComment = false)
    (h3 : cfg.blockComment = some (bs, be)) :
    (processState input).delimiter = escapeSlashes (escapeRegExp bs)
    ∧ findSingleLineComments (mkInput "/* TODO: x" "css" regCss)
        (processState (mkInput "/* TODO: x" "css" regCss)) = [⟨0, 0, 10⟩] := by
  refine ⟨?_, by decide⟩
  obtain ⟨doc, lang, range, contribs, reg, tags⟩ := input
  have h1' : GetCommentConfiguration reg lang = some cfg := h1
  rw [processState]
  dsimp only
  rw [h1']
  dsimp only
  rw [h3]
  simp only [Option.map_some']
  have harg : (if strTruthy cfg.lineComment = true then cfg.lineComment else some bs)
      = some bs := by
    rw [h2]
    simp
  rw [harg]
  have hdel : (genCommentFormat (some bs) (some bs) (some be)).delimiter
      = escapeSlashes (escapeRegExp bs) := by
    cases hbs : strTruthy (some bs) with
    | true =>
      rw [genCommentFormat_delimiter_some (some bs) (some bs) (some be) hbs]
      rfl
    | false =>
      rw [genCommentFormat_delimiter_none (some bs) (some bs) (some be) hbs]
      rw [strTruthy_false_empty bs hbs]
      rfl
  split
  · exact hdel
  · split
    · exact hdel
    · split
      · exact hdel
      · exact hdel

theorem c9_block_start_becomes_delimiter_witness :
    GetCommentConfiguration regCss "css" = some ⟨none, some ("/*", "*/")⟩
    ∧ strTruthy (none : Option String) = false
    ∧ ((processState (mkInput "x" "css" regCss)).delimiter
          = escapeSlashes (escapeRegExp "/*")
        ∧ findSingleLineComments (mkInput "/* TODO: x" "css" regCss)
            (processState (mkInput "/* TODO: x" "css" regCss)) = [⟨0, 0, 10⟩]) :=
  ⟨by decide, by decide,
   c9_block_start_becomes_delimiter (mkInput "x" "css" regCss)
     ⟨none, some ("/*", "*/")⟩ "/*" "*/" (by decide) (by decide) (by decide)⟩

/-- C10: the `useJSDocStyle` contribution is never read by any scanner:
flipping it (with everything else fixed) leaves every scanner's output,
the full scan, and the per-tag decoration sets unchanged. -/
theorem c10_useJSDocStyle_no_effect (doc lang : String)
    (range : Option (Nat × Nat)) (c : Contributions)
    (reg : String → Option CommentConfig) (tags : List CommentTag) (j1 j2 : Bool) :
    scanAll ⟨doc, lang, range, { c with useJSDocStyle := j1 }, reg, tags⟩
      = scanAll ⟨doc, lang, range, { c with useJSDocStyle := j2 }, reg, tags⟩
    ∧ updateDecorations ⟨doc, lang, range, { c with useJSDocStyle := j1 }, reg, tags⟩
      = updateDecorations ⟨doc, lang, range, { c with useJSDocStyle := j2 }, reg, tags⟩
    ∧ findSingleLineComments ⟨doc, lang, range, { c with useJSDocStyle := j1 }, reg, tags⟩
        (processState ⟨doc, lang, range, { c with useJSDocStyle := j1 }, reg, tags⟩)
      = findSingleLineComments ⟨doc, lang, range, { c with useJSDocStyle := j2 }, reg, tags⟩
        (processState ⟨doc, lang, range, { c with useJSDocStyle := j2 }, reg, tags⟩)
    ∧ findBlockComments ⟨doc, lang, range, { c with useJSDocStyle := j1 }, reg, tags⟩
        (processState ⟨doc, lang, range, { c with useJSDocStyle := j1 }, reg, tags⟩)
      = findBlockComments ⟨doc, lang, range, { c with useJSDocStyle := j2 }, reg, tags⟩
        (processState ⟨doc, lang, range, { c with useJSDocStyle := j2 }, reg, tags⟩)
    ∧ findJSDocComments ⟨doc, lang, range, { c with useJSDocStyle := j1 }, reg, tags⟩
        (processState ⟨doc, lang, range, { c with useJSDocStyle := j1 }, reg, tags⟩)
      = findJSDocComments ⟨doc, lang, range, { c with useJSDocStyle := j2 }, reg, tags⟩
        (processState ⟨doc, lang, range, { c with useJSDocStyle := j2 }, reg, tags⟩)
    ∧ findMarkdownTextComments ⟨doc, lang, range, { c with useJSDocStyle := j1 }, reg, tags⟩
      = findMarkdownTextComments ⟨doc, lang, range, { c with useJSDocStyle := j2 }, reg, tags⟩
    ∧ findMarkdownCodeComments ⟨doc, lang, range, { c with useJSDocStyle := j1 }, reg, tags⟩
      = findMarkdownCodeComments ⟨doc, lang, range, { c with useJSDocStyle := j2 }, reg, tags⟩ := by
  cases c
  exact ⟨rfl, rfl, rfl, rfl, rfl, rfl, rfl⟩

end BetterComments
